import Mathlib

/-!
Verification of the timezone-wizard core of timeBuddy (`src/cmd/wizard.go`).

The wizard is a two-pane picker: a `selected` ordered list of timezone
identifiers and an `available` two-level tree (areas containing locations),
with an incremental search mode.  This file gives a shallow embedding of the
wizard's data model and state-transition functions and proves the documented
properties about them.

Embedding conventions:
* The Go `treeNode` is only ever instantiated at two levels (area nodes whose
  children are location nodes, and childless location nodes), so it is
  modelled by two structures, `LocNode` and `AreaNode`; the `nodeType`
  discriminant becomes the choice of structure and the unused `parent`
  back-pointer is dropped.
* Go `int` cursors are modelled as `Int`; all reachable states keep them
  non-negative.  Go slice indexing whose guard really does bound the index
  is totalised with `Option` lookups whose failure branch returns the model
  unchanged; `moveSelectedUp`, whose guard does **not** bound the cursor
  from above and which can therefore panic in reachable states (the
  selected-pane cursor goes stale when `removeFromSelected` shrinks the
  list), instead returns `Option WizardModel` with `none` modelling the
  panic.
* Go's byte-wise string comparison, `strings.ToLower`, `strings.Contains`
  and `strings.SplitN(s, "/", 2)` are modelled structurally on the character
  lists underlying `String` (timezone identifiers are ASCII, where the byte
  and character views coincide).
* `sort.Strings` / `sort.Slice` are modelled by `List.insertionSort`: the
  comparison keys determine all node fields here, so every sorted permutation
  of the input is the same list and the choice of sorting algorithm is
  immaterial.
* The catalog (`timezonesAll`, defined outside the wizard) is passed as an
  explicit parameter, matching the `buildTree(timezones, selected)` signature.
* Fields of `wizardModel` that only affect rendering or session teardown
  (`width`, `height`, `quitting`, `saved`) and the derived pointer index
  `treeIndex` (unused by the modelled operations) are omitted.
-/

namespace TimeBuddy

/-! ## String primitives (models of the Go string operations used) -/

/-- Case conversion of a single character, as `strings.ToLower` acts on the
ASCII subset: latin capitals map to the corresponding small letters. -/
def chLower (c : Char) : Char :=
  if 'A' ≤ c ∧ c ≤ 'Z' then Char.ofNat (c.toNat + 32) else c

/-- Model of `strings.ToLower` (ASCII subset). -/
def strToLower (s : String) : String := ⟨s.data.map chLower⟩

/-- Byte-wise `≤` on strings (the order used by `sort.Strings` and the
`<` comparator of `sort.Slice`), on the underlying character lists. -/
def charListLe : List Char → List Char → Bool
  | [], _ => true
  | _ :: _, [] => false
  | a :: as, b :: bs => if a = b then charListLe as bs else decide (a < b)

/-- Lexicographic string order as a relation, for `List.insertionSort`. -/
def strLeRel (a b : String) : Prop := charListLe a.data b.data = true

instance : DecidableRel strLeRel := fun a b => Bool.decEq (charListLe a.data b.data) true

/-- Prefix test on character lists (helper for the substring test). -/
def leadsList : List Char → List Char → Bool
  | [], _ => true
  | _ :: _, [] => false
  | a :: as, b :: bs => a = b && leadsList as bs

/-- Model of `strings.Contains sub s` (substring occurrence). -/
def containsSub (s sub : List Char) : Bool :=
  match s with
  | [] => leadsList sub []
  | _ :: rest => leadsList sub s || containsSub rest sub

/-- Membership loop used throughout `wizard.go` (`isInSelected`,
`selectedSet`, the inner loop of `countSelectedInArea`): a linear scan with
`==`. -/
def listContains (l : List String) (x : String) : Bool :=
  match l with
  | [] => false
  | s :: rest => if s = x then true else listContains rest x

/-- Model of `strings.SplitN(tz, "/", 2)` restricted to the case
`strings.Contains(tz, "/")`: splits at the first `/`, returning the area
prefix and the remainder.  Returns `none` when the string has no `/`. -/
def splitSlash : List Char → Option (List Char × List Char)
  | [] => none
  | c :: cs =>
    if c = '/' then some ([], cs)
    else
      match splitSlash cs with
      | none => none
      | some p => some (c :: p.1, p.2)

/-- Area/location decomposition of a catalog entry (`parts[0]`, `parts[1]`
in `buildTree`); `none` for entries without a `/`, which `buildTree` skips. -/
def splitArea (tz : String) : Option (String × String) :=
  match splitSlash tz.data with
  | none => none
  | some p => some (⟨p.1⟩, ⟨p.2⟩)

/-! ## Data model (`treeNode`, `flatTreeEntry`, `searchMatch`, `wizardModel`) -/

/-- Location (leaf) tree node: `treeNode` with `nodeType == locationNode`. -/
structure LocNode where
  name : String
  fullPath : String
  isSelected : Bool
deriving DecidableEq

/-- Area tree node: `treeNode` with `nodeType == areaNode`. -/
structure AreaNode where
  name : String
  fullPath : String
  expanded : Bool
  children : List LocNode
deriving DecidableEq

/-- A visible row of the flattened tree view; `childIdx = -1` marks the
area-header row itself (`flatTreeEntry.isArea`). -/
structure FlatTreeEntry where
  areaIdx : Nat
  childIdx : Int
deriving DecidableEq

/-- `flatTreeEntry.isArea`. -/
def FlatTreeEntry.isArea (f : FlatTreeEntry) : Bool := f.childIdx = -1

/-- `searchMatch`: one search hit, with the coordinate of the matching
location node and a snapshot of its selection state. -/
structure SearchMatch where
  fullPath : String
  areaIdx : Nat
  childIdx : Nat
  isSelected : Bool
deriving DecidableEq

/-- Which pane has focus. -/
inductive Pane where
  | selectedPane
  | availablePane
deriving DecidableEq

/-- The wizard state (`wizardModel`), restricted to the fields the modelled
operations read or write. -/
structure WizardModel where
  selected : List String
  tree : List AreaNode
  flatTree : List FlatTreeEntry
  focusedPane : Pane
  selectedCursor : Int
  treeCursor : Int
  searchMode : Bool
  searchQuery : String
  searchResults : List SearchMatch
  searchCursor : Int
  preSearchExpanded : Option (List (Nat × Bool))
deriving DecidableEq

/-! ## Tree construction (`buildTree`, `flattenTree`, `initWizardModel`) -/

/-- One step of the grouping loop of `buildTree`: append a location node to
its area's child list, creating the area on first sight.  The association
list stands in for Go's `areaMap` (the map's iteration order is irrelevant
because the area names are sorted afterwards). -/
def addToArea (acc : List (String × List LocNode)) (areaName : String) (ln : LocNode) :
    List (String × List LocNode) :=
  match acc with
  | [] => [(areaName, [ln])]
  | g :: rest =>
    if g.1 = areaName then (g.1, g.2 ++ [ln]) :: rest
    else g :: addToArea rest areaName ln

/-- One catalog entry of the grouping loop of `buildTree`: entries without
a `/` are skipped, the rest are appended to their area. -/
def groupStep (selected : List String) (acc : List (String × List LocNode)) (tz : String) :
    List (String × List LocNode) :=
  match splitArea tz with
  | none => acc
  | some al =>
    addToArea acc al.1 { name := al.2, fullPath := tz, isSelected := listContains selected tz }

/-- The grouping loop of `buildTree`: partition the catalog entries that
contain a `/` by area prefix, recording each location's selection state. -/
def groupByArea (timezones selected : List String) : List (String × List LocNode) :=
  timezones.foldl (groupStep selected) []

/-- `areaMap[name]` for a name drawn from the map's key set. -/
def lookupArea (groups : List (String × List LocNode)) (name : String) : List LocNode :=
  match groups with
  | [] => []
  | g :: rest => if g.1 = name then g.2 else lookupArea rest name

/-- Child order within one area: smaller `name` first (the `sort.Slice`
comparator of `buildTree`). -/
def locLeRel (a b : LocNode) : Prop := charListLe a.name.data b.name.data = true

instance : DecidableRel locLeRel := fun a b => Bool.decEq (charListLe a.name.data b.name.data) true

/-- The synthetic `System` area holding the single `Local` entry, placed at
the head of the forest by `buildTree`; it starts expanded. -/
def systemArea (selected : List String) : AreaNode :=
  { name := "System", fullPath := "System", expanded := true,
    children := [{ name := "Local", fullPath := "Local",
                   isSelected := listContains selected "Local" }] }

/-- Assembly of one catalog-derived area: initially collapsed, children
sorted by location name. -/
def builtArea (groups : List (String × List LocNode)) (name : String) : AreaNode :=
  { name := name, fullPath := name, expanded := false,
    children := List.insertionSort locLeRel (lookupArea groups name) }

/-- `buildTree`: group the catalog by area, sort area names and each area's
children lexicographically, and prepend the fixed `System`/`Local` root.
Every catalog-derived area starts collapsed.  (The returned `treeIndex` is
dropped: no modelled operation consults it.) -/
def buildTree (timezones selected : List String) : List AreaNode :=
  let groups := groupByArea timezones selected
  let areaNames := List.insertionSort strLeRel (groups.map Prod.fst)
  systemArea selected :: areaNames.map (builtArea groups)

/-- `countSelectedInArea`: how many of an area's children are selected. -/
def countSelectedInArea (area : AreaNode) (selected : List String) : Nat :=
  area.children.countP (fun child => listContains selected child.fullPath)

/-- The flattening loop of `flattenTree`, carrying the running area index:
one header row per area, then one row per child of each expanded area. -/
def flattenTreeAux : Nat → List AreaNode → List FlatTreeEntry
  | _, [] => []
  | i, a :: rest =>
    ({ areaIdx := i, childIdx := -1 } ::
      (if a.expanded then
        (List.range a.children.length).map (fun j => { areaIdx := i, childIdx := (j : Int) })
      else []))
      ++ flattenTreeAux (i + 1) rest

/-- `flattenTree`: the linear, expansion-aware view used for navigation. -/
def flattenTree (tree : List AreaNode) : List FlatTreeEntry :=
  flattenTreeAux 0 tree

/-- `updateSelectionState`: re-derive every location's `isSelected` flag
from the selected list (the list is the single source of truth). -/
def updateSelectionState (m : WizardModel) : WizardModel :=
  { m with tree := m.tree.map (fun area =>
      { area with children := area.children.map (fun c =>
          { c with isSelected := listContains m.selected c.fullPath }) }) }

/-- The auto-expand loop of `initWizardModel`: open every area that already
contains a selected timezone. -/
def autoExpand (tree : List AreaNode) (selected : List String) : List AreaNode :=
  tree.map (fun area =>
    if countSelectedInArea area selected > 0 then { area with expanded := true } else area)

/-- `initWizardModel` (with the catalog as an explicit parameter in place of
the package-level `timezonesAll`): build the tree, auto-expand areas with
selections, flatten, and sync selection flags.  Focus starts on the
available pane with both cursors at 0. -/
def initWizardModel (timezones currentTimezones : List String) : WizardModel :=
  let tree := autoExpand (buildTree timezones currentTimezones) currentTimezones
  updateSelectionState
    { selected := currentTimezones
      tree := tree
      flatTree := flattenTree tree
      focusedPane := .availablePane
      selectedCursor := 0
      treeCursor := 0
      searchMode := false
      searchQuery := ""
      searchResults := []
      searchCursor := 0
      preSearchExpanded := none }

/-! ## Node lookup and selection-list primitives -/

/-- The node a flat row denotes: an area header or a location. -/
inductive NodeRef where
  | area (a : AreaNode)
  | loc (c : LocNode)
deriving DecidableEq

/-- `getNodeFromFlatIndex`: resolve a flat-view index to its tree node;
`none` outside `[0, len(flatTree))` (the Go function returns `nil` there).
The inner `Option` lookups cannot fail for a `flatTree` computed by
`flattenTree` from the current tree (out-of-range coordinates would panic in
Go and are unreachable). -/
def getNodeFromFlatIndex (m : WizardModel) (flatIdx : Int) : Option NodeRef :=
  if flatIdx < 0 ∨ flatIdx ≥ (m.flatTree.length : Int) then none
  else
    match m.flatTree[flatIdx.toNat]? with
    | none => none
    | some entry =>
      match m.tree[entry.areaIdx]? with
      | none => none
      | some a =>
        if entry.isArea then some (NodeRef.area a)
        else a.children[entry.childIdx.toNat]?.map NodeRef.loc

/-- The removal loop of `removeFromSelected`: drop the first occurrence. -/
def removeFirst : List String → String → List String
  | [], _ => []
  | s :: rest, tz => if s = tz then rest else s :: removeFirst rest tz

/-- `removeFromSelected` lifted to the model. -/
def removeFromSelected (m : WizardModel) (tz : String) : WizardModel :=
  { m with selected := removeFirst m.selected tz }

/-- `isInSelected`. -/
def isInSelected (m : WizardModel) (tz : String) : Bool :=
  listContains m.selected tz

/-- `removeSelected`: delete the entry under `selectedCursor` (guarded
no-op when the list is empty or the cursor is past the end), pull the
cursor back if it fell off the new end, and re-sync the tree flags. -/
def removeSelected (m : WizardModel) : WizardModel :=
  if m.selected.length = 0 ∨ m.selectedCursor ≥ (m.selected.length : Int) then m
  else
    let sel := m.selected.take m.selectedCursor.toNat ++ m.selected.drop (m.selectedCursor.toNat + 1)
    let cursor :=
      if m.selectedCursor ≥ (sel.length : Int) ∧ m.selectedCursor > 0 then m.selectedCursor - 1
      else m.selectedCursor
    updateSelectionState { m with selected := sel, selectedCursor := cursor }

/-! ## Cursor movement and reordering -/

/-- `moveCursorUp`: decrement the focused pane's cursor, clamped at 0. -/
def moveCursorUp (m : WizardModel) : WizardModel :=
  if m.focusedPane = .selectedPane then
    if m.selectedCursor > 0 then { m with selectedCursor := m.selectedCursor - 1 } else m
  else
    if m.treeCursor > 0 then { m with treeCursor := m.treeCursor - 1 } else m

/-- `moveCursorDown`: increment the focused pane's cursor, clamped at the
end of its collection. -/
def moveCursorDown (m : WizardModel) : WizardModel :=
  if m.focusedPane = .selectedPane then
    if m.selectedCursor < (m.selected.length : Int) - 1 then
      { m with selectedCursor := m.selectedCursor + 1 }
    else m
  else
    if m.treeCursor < (m.flatTree.length : Int) - 1 then
      { m with treeCursor := m.treeCursor + 1 }
    else m

/-- `moveSelectedUp`: swap the entry under the cursor with its predecessor
and follow it.  The guard (`selectedCursor > 0 && len(selected) > 1`) does
not bound the cursor from above, and `removeFromSelected` — reached from
the available pane and from search mode — shrinks the list without ever
clamping `selectedCursor`; with a stale cursor `≥ len(selected)` the Go
code indexes `m.selected[m.selectedCursor]` out of range and panics.
`none` models that panic (under the guard the lookup fails exactly when
the Go index is out of range). -/
def moveSelectedUp (m : WizardModel) : Option WizardModel :=
  if m.selectedCursor > 0 ∧ m.selected.length > 1 then
    let i := m.selectedCursor.toNat
    match m.selected[i]?, m.selected[i - 1]? with
    | some a, some b =>
      some { m with selected := (m.selected.set i b).set (i - 1) a,
                    selectedCursor := m.selectedCursor - 1 }
    | _, _ => none
  else some m

/-- `moveSelectedDown`: swap the entry under the cursor with its successor
and follow it. -/
def moveSelectedDown (m : WizardModel) : WizardModel :=
  if m.selectedCursor < (m.selected.length : Int) - 1 ∧ m.selected.length > 1 then
    let i := m.selectedCursor.toNat
    match m.selected[i]?, m.selected[i + 1]? with
    | some a, some b =>
      { m with selected := (m.selected.set i b).set (i + 1) a,
               selectedCursor := m.selectedCursor + 1 }
    | _, _ => m
  else m

/-! ## Selection toggling and expansion -/

/-- `toggleSelection`: in the selected pane, remove under the cursor; in
the available pane, flip a location's membership, or bulk-toggle an area
(all selected ⇒ remove every child; otherwise append each not-yet-selected
child, checking membership against the growing list).  The loops of the Go
code thread only `m.selected`, so they are folds over the selected list. -/
def toggleSelection (m : WizardModel) : WizardModel :=
  if m.focusedPane = .selectedPane then removeSelected m
  else
    match getNodeFromFlatIndex m m.treeCursor with
    | none => m
    | some (.area a) =>
      let allSelected := a.children.all (fun child => isInSelected m child.fullPath)
      let sel :=
        if allSelected then
          a.children.foldl (fun acc child => removeFirst acc child.fullPath) m.selected
        else
          a.children.foldl
            (fun acc child =>
              if listContains acc child.fullPath then acc else acc ++ [child.fullPath])
            m.selected
      updateSelectionState { m with selected := sel }
    | some (.loc c) =>
      let sel :=
        if isInSelected m c.fullPath then removeFirst m.selected c.fullPath
        else m.selected ++ [c.fullPath]
      updateSelectionState { m with selected := sel }

/-- The search-and-toggle loop of `toggleExpand`: flip `expanded` on the
first area whose `fullPath` matches. -/
def toggleExpandIn : List AreaNode → String → List AreaNode
  | [], _ => []
  | a :: rest, path =>
    if a.fullPath = path then { a with expanded := !a.expanded } :: rest
    else a :: toggleExpandIn rest path

/-- `toggleExpand`: flip the area under the cursor, re-flatten, and clamp
the cursor to the (possibly shorter) new view. -/
def toggleExpand (m : WizardModel) : WizardModel :=
  match getNodeFromFlatIndex m m.treeCursor with
  | some (.area a) =>
    let tree := toggleExpandIn m.tree a.fullPath
    let flat := flattenTree tree
    let cursor := if m.treeCursor ≥ (flat.length : Int) then (flat.length : Int) - 1 else m.treeCursor
    { m with tree := tree, flatTree := flat, treeCursor := cursor }
  | _ => m

/-! ## Search mode (`enterSearchMode`, `exitSearchMode`, `performSearch`,
and the branches of `handleSearchInput`) -/

/-- The snapshot loop of `enterSearchMode`: record every area's current
`expanded` flag, keyed by area index (Go's `map[int]bool`, as an
association list with the running index). -/
def snapAux : Nat → List AreaNode → List (Nat × Bool)
  | _, [] => []
  | i, a :: rest => (i, a.expanded) :: snapAux (i + 1) rest

/-- Keyed lookup in the expansion snapshot (`m.preSearchExpanded[i]`). -/
def lookupSnap : List (Nat × Bool) → Nat → Option Bool
  | [], _ => none
  | p :: rest, i => if p.1 = i then some p.2 else lookupSnap rest i

/-- The restore loop of `exitSearchMode`: put back each area's saved
`expanded` flag where the snapshot has its index. -/
def restoreAux (snap : List (Nat × Bool)) : Nat → List AreaNode → List AreaNode
  | _, [] => []
  | i, a :: rest =>
    (match lookupSnap snap i with
     | some e => { a with expanded := e }
     | none => a) :: restoreAux snap (i + 1) rest

/-- `enterSearchMode`: switch to search mode with an empty query, no
matches, cursor 0, and a snapshot of the expansion state. -/
def enterSearchMode (m : WizardModel) : WizardModel :=
  { m with searchMode := true, searchQuery := "", searchResults := [], searchCursor := 0,
           preSearchExpanded := some (snapAux 0 m.tree) }

/-- `exitSearchMode`: leave search mode and clear query/matches/cursor;
with `keepExpansion = false` and a live snapshot, also restore the saved
expansion flags and re-flatten.  The snapshot is discarded either way. -/
def exitSearchMode (m : WizardModel) (keepExpansion : Bool) : WizardModel :=
  let base := { m with searchMode := false, searchQuery := "", searchResults := [],
                       searchCursor := 0 }
  if keepExpansion = false then
    match m.preSearchExpanded with
    | some snap =>
      let tree := restoreAux snap 0 m.tree
      { base with tree := tree, flatTree := flattenTree tree, preSearchExpanded := none }
    | none => { base with preSearchExpanded := none }
  else { base with preSearchExpanded := none }

/-- The inner loop of `performSearch` over one area's children, carrying
the child index. -/
def searchChildrenAux (selected : List String) (query : List Char) (i : Nat) :
    Nat → List LocNode → List SearchMatch
  | _, [] => []
  | j, c :: rest =>
    (if containsSub (strToLower c.fullPath).data query then
      [{ fullPath := c.fullPath, areaIdx := i, childIdx := j,
         isSelected := listContains selected c.fullPath }]
    else [])
      ++ searchChildrenAux selected query i (j + 1) rest

/-- The outer loop of `performSearch`, carrying the area index. -/
def searchScanAux (selected : List String) (query : List Char) :
    Nat → List AreaNode → List SearchMatch
  | _, [] => []
  | i, a :: rest =>
    searchChildrenAux selected query i 0 a.children ++ searchScanAux selected query (i + 1) rest

/-- `performSearch`: empty query clears the matches and resets the cursor;
otherwise scan every location node for a case-insensitive substring match
of the query against its `fullPath`, and reset the cursor to 0 only if it
is now out of bounds. -/
def performSearch (m : WizardModel) : WizardModel :=
  if m.searchQuery = "" then
    { m with searchResults := [], searchCursor := 0 }
  else
    let results := searchScanAux m.selected (strToLower m.searchQuery).data 0 m.tree
    { m with searchResults := results,
             searchCursor := if m.searchCursor ≥ (results.length : Int) then 0 else m.searchCursor }

/-- The `"up"` branch of `handleSearchInput`. -/
def searchMoveUp (m : WizardModel) : WizardModel :=
  if m.searchResults.length > 0 ∧ m.searchCursor > 0 then
    { m with searchCursor := m.searchCursor - 1 }
  else m

/-- The `"down"` branch of `handleSearchInput`. -/
def searchMoveDown (m : WizardModel) : WizardModel :=
  if m.searchResults.length > 0 ∧ m.searchCursor < (m.searchResults.length : Int) - 1 then
    { m with searchCursor := m.searchCursor + 1 }
  else m

/-- The space branch of `handleSearchInput`: toggle the match under the
search cursor, re-sync the tree flags, and re-run the search so match
snapshots refresh. -/
def searchToggle (m : WizardModel) : WizardModel :=
  if m.searchResults.length > 0 ∧ m.searchCursor < (m.searchResults.length : Int) then
    match m.searchResults[m.searchCursor.toNat]? with
    | none => m
    | some mtch =>
      let m' :=
        if isInSelected m mtch.fullPath then removeFromSelected m mtch.fullPath
        else { m with selected := m.selected ++ [mtch.fullPath] }
      performSearch (updateSelectionState m')
  else m

/-- The force-expand step of the enter branch: `m.tree[areaIdx].expanded = true`. -/
def expandAreaAt (tree : List AreaNode) (idx : Nat) : List AreaNode :=
  match tree, idx with
  | [], _ => []
  | a :: rest, 0 => { a with expanded := true } :: rest
  | a :: rest, i + 1 => a :: expandAreaAt rest i

/-- The enter branch of `handleSearchInput` (commit): with a valid match
under the cursor, force-expand its area, exit keeping the live expansion
state, re-flatten, jump the tree cursor to the first row with the match's
coordinate, and focus the available pane; with no valid match, plain
cancel. -/
def searchCommit (m : WizardModel) : WizardModel :=
  if m.searchResults.length > 0 ∧ m.searchCursor < (m.searchResults.length : Int) then
    match m.searchResults[m.searchCursor.toNat]? with
    | none => m
    | some mtch =>
      let m1 := exitSearchMode { m with tree := expandAreaAt m.tree mtch.areaIdx } true
      let flat := flattenTree m1.tree
      let cursor :=
        match flat.findIdx? (fun e =>
          e.areaIdx = mtch.areaIdx && e.childIdx = (mtch.childIdx : Int)) with
        | some i => (i : Int)
        | none => m1.treeCursor
      { m1 with flatTree := flat, treeCursor := cursor, focusedPane := .availablePane }
  else exitSearchMode m false

/-- The backspace branch of `handleSearchInput`: drop the last character of
a non-empty query and re-search (no-op on an empty query). -/
def searchBackspace (m : WizardModel) : WizardModel :=
  if m.searchQuery.length > 0 then
    performSearch { m with searchQuery := ⟨m.searchQuery.data.dropLast⟩ }
  else m

/-- The rune branch of `handleSearchInput`: append typed characters to the
query and re-search. -/
def searchTypeRune (m : WizardModel) (s : String) : WizardModel :=
  performSearch { m with searchQuery := m.searchQuery ++ s }

/-! ## Command wrappers for the sequence-level properties

The driver feeds discrete commands into the model (`Update` /
`handleSearchInput`).  The wrappers below package the dispatch relevant to
each property; cursors are set from `Nat` because every reachable Go state
keeps them non-negative. -/

/-- A single toggle command: a normal-mode `toggleSelection` with the pane
and cursors it is issued under, or a search-mode space toggle at a given
search cursor. -/
inductive ToggleCmd where
  | normal (p : Pane) (selCursor treeCursor : Nat)
  | search (cursor : Nat)

/-- Apply one toggle command. -/
def applyToggleCmd (m : WizardModel) : ToggleCmd → WizardModel
  | .normal p sc tc =>
    toggleSelection
      { m with focusedPane := p, selectedCursor := (sc : Int), treeCursor := (tc : Int) }
  | .search c => searchToggle { m with searchCursor := (c : Int) }

/-- Apply a sequence of toggle commands. -/
def applyToggleCmds (m : WizardModel) (cmds : List ToggleCmd) : WizardModel :=
  cmds.foldl applyToggleCmd m

/-- The Tab branch of `Update`: move focus to the other pane. -/
def switchPane (m : WizardModel) : WizardModel :=
  if m.focusedPane = .selectedPane then { m with focusedPane := .availablePane }
  else { m with focusedPane := .selectedPane }

/-- The operations available while staying inside search mode. -/
inductive SearchOp where
  | up
  | down
  | toggle
  | backspace
  | typeRune (s : String)

/-- Apply one in-search operation. -/
def applySearchOp (m : WizardModel) : SearchOp → WizardModel
  | .up => searchMoveUp m
  | .down => searchMoveDown m
  | .toggle => searchToggle m
  | .backspace => searchBackspace m
  | .typeRune s => searchTypeRune m s

/-- Apply a sequence of in-search operations. -/
def applySearchOps (m : WizardModel) (ops : List SearchOp) : WizardModel :=
  ops.foldl applySearchOp m

/-- Direct mutation of one area's `expanded` flag (`m.tree[i].expanded = b`),
used to state the collapse/re-expand property of the flattened view. -/
def setExpandedAt : List AreaNode → Nat → Bool → List AreaNode
  | [], _, _ => []
  | a :: rest, 0, b => { a with expanded := b } :: rest
  | a :: rest, i + 1, b => a :: setExpandedAt rest i b

/-! ## Spec-side traversal characterisation (for the search property) -/

/-- Spec-side helper: the coordinates of one area's children in child
order. -/
def specChildCoords (i : Nat) : Nat → List LocNode → List (Nat × Nat × LocNode)
  | _, [] => []
  | j, c :: rest => (i, j, c) :: specChildCoords i (j + 1) rest

/-- Spec-side helper: traversal with a running area index. -/
def specTraversalAux : Nat → List AreaNode → List (Nat × Nat × LocNode)
  | _, [] => []
  | i, a :: rest => specChildCoords i 0 a.children ++ specTraversalAux (i + 1) rest

/-- Spec-side description, following the spec's words: every location node
of the forest in traversal order (area order, then child order), with its
`(areaIndex, childIndex)` coordinate. -/
def specTraversal (tree : List AreaNode) : List (Nat × Nat × LocNode) :=
  specTraversalAux 0 tree

/-- A fixed demonstration catalog (the scenario of the spec). -/
def demoCatalog : List String := ["America/New_York", "America/Chicago", "Europe/London"]

/-- The scenario model: the demonstration catalog with `America/New_York`
initially selected. -/
def demoModel : WizardModel := initWizardModel demoCatalog ["America/New_York"]

/-! ## Basic lemmas about the list primitives -/

theorem listContains_iff {l : List String} {x : String} :
    listContains l x = true ↔ x ∈ l := by
  induction l with
  | nil => simp [listContains]
  | cons s rest ih =>
    by_cases h : s = x
    · simp [listContains, h]
    · simp only [listContains, if_neg h, ih, List.mem_cons]
      constructor
      · exact Or.inr
      · rintro (rfl | hx)
        · exact absurd rfl h
        · exact hx

theorem listContains_eq_false {l : List String} {x : String} :
    listContains l x = false ↔ x ∉ l := by
  rw [← listContains_iff, Bool.not_eq_true]

theorem listContains_append_singleton (l : List String) (x y : String) :
    listContains (l ++ [x]) y = (listContains l y || decide (x = y)) := by
  induction l with
  | nil => simp [listContains]
  | cons s rest ih =>
    by_cases h : s = y <;> simp [listContains, h, ih]

theorem removeFirst_sublist (l : List String) (x : String) :
    (removeFirst l x).Sublist l := by
  induction l with
  | nil => simp [removeFirst]
  | cons s rest ih =>
    by_cases h : s = x
    · simp only [removeFirst, if_pos h]
      exact List.sublist_cons_self s rest
    · simp only [removeFirst, if_neg h]
      exact ih.cons₂ s

theorem nodup_removeFirst {l : List String} (h : l.Nodup) (x : String) :
    (removeFirst l x).Nodup :=
  h.sublist (removeFirst_sublist l x)

theorem removeFirst_eq_filter {l : List String} (h : l.Nodup) (x : String) :
    removeFirst l x = l.filter (fun s => !(decide (s = x))) := by
  induction l with
  | nil => rfl
  | cons s rest ih =>
    rcases List.nodup_cons.mp h with ⟨hs, hrest⟩
    by_cases hsx : s = x
    · subst hsx
      simp only [removeFirst, if_pos rfl, List.filter_cons, decide_True, Bool.not_true,
        Bool.false_eq_true, if_false]
      refine (List.filter_eq_self.mpr fun a ha => ?_).symm
      simp only [Bool.not_eq_true', decide_eq_false_iff_not]
      exact fun h' => hs (h' ▸ ha)
    · simp [removeFirst, hsx, List.filter_cons, ih hrest]

theorem not_mem_removeFirst {l : List String} (h : l.Nodup) (x : String) :
    x ∉ removeFirst l x := by
  rw [removeFirst_eq_filter h]
  simp

theorem removeFirst_append_singleton {l : List String} {x : String} (h : x ∉ l) :
    removeFirst (l ++ [x]) x = l := by
  induction l with
  | nil => simp [removeFirst]
  | cons s rest ih =>
    have hs : s ≠ x := fun hsx => h (by simp [hsx])
    simp only [List.cons_append, removeFirst, if_neg hs]
    exact congrArg (s :: ·) (ih fun hr => h (by simp [hr]))

theorem nodup_append_singleton {l : List String} {x : String}
    (h : l.Nodup) (hx : x ∉ l) : (l ++ [x]).Nodup := by
  simp [List.nodup_append, h, hx]

/-- Deleting the entry at one position yields a sublist. -/
theorem removeAt_sublist (l : List String) (i : Nat) :
    (l.take i ++ l.drop (i + 1)).Sublist l := by
  conv_rhs => rw [← List.take_append_drop i l]
  refine List.Sublist.append_left ?_ _
  have : l.drop (i + 1) = (l.drop i).drop 1 := by
    rw [List.drop_drop]
  rw [this]
  exact List.drop_sublist 1 (l.drop i)

/-! ## The two bulk-toggle folds of `toggleSelection` -/

theorem foldl_removeFirst_nodup {children : List LocNode} {sel : List String}
    (h : sel.Nodup) :
    (children.foldl (fun acc child => removeFirst acc child.fullPath) sel).Nodup := by
  induction children generalizing sel with
  | nil => exact h
  | cons c cs ih => exact ih (nodup_removeFirst h c.fullPath)

theorem foldl_removeFirst_eq_filter {children : List LocNode} {sel : List String}
    (h : sel.Nodup) :
    children.foldl (fun acc child => removeFirst acc child.fullPath) sel
      = sel.filter (fun tz => !(listContains (children.map (·.fullPath)) tz)) := by
  induction children generalizing sel with
  | nil => simp [listContains]
  | cons c cs ih =>
    simp only [List.foldl_cons]
    rw [ih (nodup_removeFirst h c.fullPath), removeFirst_eq_filter h, List.filter_filter]
    refine List.filter_congr fun a _ => ?_
    by_cases hca : c.fullPath = a
    · simp [listContains, hca]
    · have hac : ¬a = c.fullPath := fun he => hca he.symm
      simp [listContains, hca, hac]

theorem foldl_addMissing_nodup {children : List LocNode} {sel : List String}
    (h : sel.Nodup) :
    (children.foldl
      (fun acc child =>
        if listContains acc child.fullPath then acc else acc ++ [child.fullPath]) sel).Nodup := by
  induction children generalizing sel with
  | nil => exact h
  | cons c cs ih =>
    simp only [List.foldl_cons]
    by_cases hc : listContains sel c.fullPath = true
    · rw [if_pos hc]
      exact ih h
    · rw [if_neg hc]
      have hf : listContains sel c.fullPath = false := by
        revert hc
        cases listContains sel c.fullPath <;> simp
      exact ih (nodup_append_singleton h (listContains_eq_false.mp hf))

theorem foldl_addMissing_eq_append {children : List LocNode} {sel : List String}
    (h : (children.map (·.fullPath)).Nodup) :
    children.foldl
      (fun acc child =>
        if listContains acc child.fullPath then acc else acc ++ [child.fullPath]) sel
      = sel ++ (children.filter (fun c => !(listContains sel c.fullPath))).map (·.fullPath) := by
  induction children generalizing sel with
  | nil => simp
  | cons c cs ih =>
    rw [List.map_cons] at h
    have hcons := List.nodup_cons.mp h
    simp only [List.foldl_cons, List.filter_cons]
    by_cases hc : listContains sel c.fullPath = true
    · rw [if_pos hc, ih hcons.2]
      simp [hc]
    · rw [if_neg hc, ih hcons.2]
      have hf : listContains sel c.fullPath = false := by
        revert hc
        cases listContains sel c.fullPath <;> simp
      simp only [hf, Bool.not_false, if_pos rfl, List.map_cons, List.append_assoc,
        List.singleton_append]
      refine congrArg _ (congrArg _ (congrArg _ (List.filter_congr fun d hd => ?_)))
      have hne : c.fullPath ≠ d.fullPath :=
        fun he => hcons.1 (he ▸ List.mem_map_of_mem (·.fullPath) hd)
      rw [listContains_append_singleton]
      simp [hne]

/-! ## Field-transparency lemmas for the derived operations -/

theorem updateSelectionState_selected (m : WizardModel) :
    (updateSelectionState m).selected = m.selected := rfl

theorem performSearch_selected (m : WizardModel) :
    (performSearch m).selected = m.selected := by
  by_cases h : m.searchQuery = "" <;> simp [performSearch, h]

/-! ## Preservation of duplicate-freedom by the toggle operations -/

theorem removeSelected_nodup {m : WizardModel} (h : m.selected.Nodup) :
    (removeSelected m).selected.Nodup := by
  by_cases hg : m.selected.length = 0 ∨ m.selectedCursor ≥ (m.selected.length : Int)
  · unfold removeSelected
    rw [if_pos hg]
    exact h
  · unfold removeSelected
    rw [if_neg hg]
    exact h.sublist (removeAt_sublist m.selected _)

theorem toggleSelection_nodup {m : WizardModel} (h : m.selected.Nodup) :
    (toggleSelection m).selected.Nodup := by
  by_cases hp : m.focusedPane = .selectedPane
  · simpa [toggleSelection, hp] using removeSelected_nodup h
  · cases hn : getNodeFromFlatIndex m m.treeCursor with
    | none => simpa [toggleSelection, hp, hn] using h
    | some nr =>
      cases nr with
      | area a =>
        by_cases hall : (a.children.all fun child => isInSelected m child.fullPath) = true
        · simpa [toggleSelection, hp, hn, hall] using foldl_removeFirst_nodup h
        · simpa [toggleSelection, hp, hn, hall] using foldl_addMissing_nodup h
      | loc c =>
        by_cases hin : isInSelected m c.fullPath = true
        · simpa [toggleSelection, hp, hn, hin] using nodup_removeFirst h c.fullPath
        · have hf : listContains m.selected c.fullPath = false := by
            revert hin
            unfold isInSelected
            cases listContains m.selected c.fullPath <;> simp
          simpa [toggleSelection, hp, hn, hin] using
            nodup_append_singleton h (listContains_eq_false.mp hf)

theorem searchToggle_nodup {m : WizardModel} (h : m.selected.Nodup) :
    (searchToggle m).selected.Nodup := by
  by_cases hg : m.searchResults.length > 0 ∧ m.searchCursor < (m.searchResults.length : Int)
  · cases hr : m.searchResults[m.searchCursor.toNat]? with
    | none => simpa [searchToggle, hg, hr] using h
    | some mtch =>
      by_cases hin : isInSelected m mtch.fullPath = true
      · simpa [searchToggle, hg, hr, hin, performSearch_selected,
          updateSelectionState_selected, removeFromSelected] using
          nodup_removeFirst h mtch.fullPath
      · have hf : listContains m.selected mtch.fullPath = false := by
          revert hin
          unfold isInSelected
          cases listContains m.selected mtch.fullPath <;> simp
        simpa [searchToggle, hg, hr, hin, performSearch_selected,
          updateSelectionState_selected] using
          nodup_append_singleton h (listContains_eq_false.mp hf)
  · simpa [searchToggle, hg] using h

theorem applyToggleCmd_nodup {m : WizardModel} (h : m.selected.Nodup) (c : ToggleCmd) :
    (applyToggleCmd m c).selected.Nodup := by
  cases c with
  | normal p sc tc => exact toggleSelection_nodup h
  | search c => exact searchToggle_nodup h

/-- C2: for every initial selection without duplicates and every finite
sequence of `toggleSelection` operations — single-location or area-level,
issued in normal mode under any pane/cursor position or in search mode at
any search cursor — the selected list (`SelectionSet`) never contains two
equal `fullPath` values at any observable point. -/
theorem c2_selection_nodup (m : WizardModel) (cmds : List ToggleCmd)
    (h : m.selected.Nodup) : (applyToggleCmds m cmds).selected.Nodup := by
  induction cmds generalizing m with
  | nil => simpa [applyToggleCmds] using h
  | cons c cs ih =>
    simpa [applyToggleCmds, List.foldl_cons] using ih _ (applyToggleCmd_nodup h c)

/-- Witness for C2: the scenario model, a bulk area toggle followed by a
search-mode toggle. -/
theorem c2_selection_nodup_witness :
    demoModel.selected.Nodup ∧
      (applyToggleCmds demoModel [.normal .availablePane 0 2, .search 0]).selected.Nodup :=
  ⟨by decide, c2_selection_nodup demoModel [.normal .availablePane 0 2, .search 0] (by decide)⟩

/-- C1: with focus on the available pane and the tree cursor on an area
node, `toggleSelection` is a bulk operation: if every child of the area is
currently in the selected list, it removes exactly the area's children
from it (leaving everything else in place, in order); otherwise it appends
exactly the not-yet-selected children, in child (catalog) order, to the
end, leaving already-selected entries untouched.  The duplicate-freedom
hypotheses on the selected list and on the area's child paths hold in
every reachable state. -/
theorem c1_area_toggle_bulk (m : WizardModel) (a : AreaNode)
    (hp : m.focusedPane = .availablePane)
    (hn : getNodeFromFlatIndex m m.treeCursor = some (.area a))
    (hsel : m.selected.Nodup) (hch : (a.children.map (·.fullPath)).Nodup) :
    (toggleSelection m).selected =
      if a.children.all (fun child => listContains m.selected child.fullPath) then
        m.selected.filter (fun tz => !(listContains (a.children.map (·.fullPath)) tz))
      else
        m.selected ++
          (a.children.filter (fun c => !(listContains m.selected c.fullPath))).map (·.fullPath) := by
  have key : (toggleSelection m).selected =
      if a.children.all (fun child => isInSelected m child.fullPath) then
        a.children.foldl (fun acc child => removeFirst acc child.fullPath) m.selected
      else
        a.children.foldl
          (fun acc child =>
            if listContains acc child.fullPath then acc else acc ++ [child.fullPath])
          m.selected := by
    simp [toggleSelection, hp, hn, updateSelectionState_selected]
  rw [key]
  by_cases hall : (a.children.all fun child => isInSelected m child.fullPath) = true
  · rw [if_pos hall, if_pos (by simpa [isInSelected] using hall)]
    exact foldl_removeFirst_eq_filter hsel
  · rw [if_neg hall, if_neg (by simpa [isInSelected] using hall)]
    exact foldl_addMissing_eq_append hch

/-- Witness for C1, the spec's scenario: toggling the partially selected
`America` area appends only the missing `America/Chicago`. -/
theorem c1_area_toggle_bulk_witness :
    (toggleSelection { demoModel with treeCursor := 2 }).selected =
      ["America/New_York", "America/Chicago"] := by
  have h := c1_area_toggle_bulk { demoModel with treeCursor := 2 }
    { name := "America", fullPath := "America", expanded := true,
      children := [{ name := "Chicago", fullPath := "America/Chicago", isSelected := false },
                   { name := "New_York", fullPath := "America/New_York", isSelected := true }] }
    (by decide) (by decide) (by decide) (by decide)
  rw [h]
  decide

/-! ## Stability of node lookup across selection changes -/

theorem getNodeFromFlatIndex_congr {m m' : WizardModel} (ht : m'.tree = m.tree)
    (hf : m'.flatTree = m.flatTree) (idx : Int) :
    getNodeFromFlatIndex m' idx = getNodeFromFlatIndex m idx := by
  unfold getNodeFromFlatIndex
  rw [ht, hf]

/-- Re-syncing selection flags only rewrites each node's `isSelected`
field; node lookup commutes with it. -/
theorem getNodeFromFlatIndex_updateSelectionState (m : WizardModel) (idx : Int) :
    getNodeFromFlatIndex (updateSelectionState m) idx =
      (getNodeFromFlatIndex m idx).map (fun r =>
        match r with
        | .area a => .area { a with children := a.children.map (fun c =>
            { c with isSelected := listContains m.selected c.fullPath }) }
        | .loc c => .loc { c with isSelected := listContains m.selected c.fullPath }) := by
  unfold getNodeFromFlatIndex updateSelectionState
  by_cases hb : idx < 0 ∨ idx ≥ (m.flatTree.length : Int)
  · simp [hb]
  · simp only [if_neg hb]
    cases he : m.flatTree[idx.toNat]? with
    | none => simp [he]
    | some entry =>
      cases ha : m.tree[entry.areaIdx]? with
      | none => simp [he, ha, List.getElem?_map]
      | some a =>
        by_cases hia : entry.isArea = true
        · simp [he, ha, hia, List.getElem?_map]
        · simp only [he, ha, hia, List.getElem?_map, Option.map_map]
          cases hc : a.children[entry.childIdx.toNat]? <;> simp [hc]

/-- The single-location branch of `toggleSelection` in closed form. -/
theorem toggleSelection_loc {m : WizardModel} {c : LocNode}
    (hp : m.focusedPane = .availablePane)
    (hn : getNodeFromFlatIndex m m.treeCursor = some (.loc c)) :
    toggleSelection m =
      updateSelectionState
        { m with selected :=
            if isInSelected m c.fullPath then removeFirst m.selected c.fullPath
            else m.selected ++ [c.fullPath] } := by
  simp [toggleSelection, hp, hn]

/-- Node lookup after a re-sync, specialised to a location hit. -/
theorem getNode_after_updateSel (mm : WizardModel) (idx : Int) (c : LocNode)
    (h : getNodeFromFlatIndex mm idx = some (.loc c)) :
    getNodeFromFlatIndex (updateSelectionState mm) idx =
      some (.loc { c with isSelected := listContains mm.selected c.fullPath }) := by
  rw [getNodeFromFlatIndex_updateSelectionState, h]
  rfl

/-- C9: toggling the same location twice returns the selected list to its
prior contents and order, except that an initially present location ends
up appended at the end rather than at its original position; an initially
absent location leaves the list restored exactly. -/
theorem c9_double_toggle (m : WizardModel) (c : LocNode)
    (hp : m.focusedPane = .availablePane)
    (hn : getNodeFromFlatIndex m m.treeCursor = some (.loc c))
    (hsel : m.selected.Nodup) :
    (toggleSelection (toggleSelection m)).selected =
      if listContains m.selected c.fullPath then
        removeFirst m.selected c.fullPath ++ [c.fullPath]
      else m.selected := by
  have h1 := toggleSelection_loc hp hn
  have hns : (toggleSelection m).selected =
      if isInSelected m c.fullPath then removeFirst m.selected c.fullPath
      else m.selected ++ [c.fullPath] := by
    rw [h1]
    rfl
  have hp1 : (toggleSelection m).focusedPane = .availablePane := by
    rw [h1]
    exact hp
  have hstep : getNodeFromFlatIndex
      { m with selected :=
          if isInSelected m c.fullPath then removeFirst m.selected c.fullPath
          else m.selected ++ [c.fullPath] } m.treeCursor = some (.loc c) := by
    refine (getNodeFromFlatIndex_congr (m := m) rfl rfl _).trans hn
  have hn1 : getNodeFromFlatIndex (toggleSelection m) (toggleSelection m).treeCursor =
      some (.loc { c with isSelected := listContains (toggleSelection m).selected c.fullPath }) := by
    rw [h1]
    exact getNode_after_updateSel _ _ _ hstep
  have h2 := toggleSelection_loc hp1 hn1
  have hns2 : (toggleSelection (toggleSelection m)).selected =
      if isInSelected (toggleSelection m) c.fullPath then
        removeFirst (toggleSelection m).selected c.fullPath
      else (toggleSelection m).selected ++ [c.fullPath] := by
    rw [h2]
    rfl
  rw [hns2]
  by_cases hin : listContains m.selected c.fullPath = true
  · rw [if_pos hin]
    have hsel1 : (toggleSelection m).selected = removeFirst m.selected c.fullPath := by
      rw [hns]
      simp [isInSelected, hin]
    have hnot : c.fullPath ∉ (toggleSelection m).selected := by
      rw [hsel1]
      exact not_mem_removeFirst hsel c.fullPath
    have hfalse : isInSelected (toggleSelection m) c.fullPath = false := by
      unfold isInSelected
      exact listContains_eq_false.mpr hnot
    rw [hfalse]
    simp [hsel1]
  · rw [if_neg hin]
    have hf : listContains m.selected c.fullPath = false := by
      revert hin
      cases listContains m.selected c.fullPath <;> simp
    have hsel1 : (toggleSelection m).selected = m.selected ++ [c.fullPath] := by
      rw [hns]
      simp [isInSelected, hf]
    have htrue : isInSelected (toggleSelection m) c.fullPath = true := by
      unfold isInSelected
      rw [hsel1, listContains_append_singleton]
      simp
    rw [htrue]
    simp only [if_pos rfl, hsel1]
    exact removeFirst_append_singleton (listContains_eq_false.mp hf)

/-- Witness for C9: double-toggling the initially unselected `Local`
location restores the scenario selection exactly. -/
theorem c9_double_toggle_witness :
    (toggleSelection (toggleSelection { demoModel with treeCursor := 1 })).selected =
      ["America/New_York"] := by
  have h := c9_double_toggle { demoModel with treeCursor := 1 }
    { name := "Local", fullPath := "Local", isSelected := false }
    (by decide) (by decide) (by decide)
  rw [h]
  decide

/-! ## Properties of the flattened view -/

theorem flattenTreeAux_append (t₁ t₂ : List AreaNode) (i : Nat) :
    flattenTreeAux i (t₁ ++ t₂) = flattenTreeAux i t₁ ++ flattenTreeAux (i + t₁.length) t₂ := by
  induction t₁ generalizing i with
  | nil => simp [flattenTreeAux]
  | cons a rest ih =>
    simp [flattenTreeAux, ih, Nat.add_assoc, Nat.add_comm 1 rest.length]

theorem flattenTreeAux_length (t : List AreaNode) (i : Nat) :
    (flattenTreeAux i t).length =
      t.length + ((t.filter (fun a => a.expanded)).map (fun a => a.children.length)).sum := by
  induction t generalizing i with
  | nil => rfl
  | cons a rest ih =>
    by_cases he : a.expanded = true
    · simp [flattenTreeAux, he, ih, List.filter_cons]
      ring
    · simp [flattenTreeAux, he, ih, List.filter_cons]
      ring

theorem flattenTreeAux_collapse_length (t : List AreaNode) (a : AreaNode) :
    ∀ i j, t[i]? = some a → a.expanded = true →
      (flattenTreeAux j t).length =
        (flattenTreeAux j (setExpandedAt t i false)).length + a.children.length := by
  induction t with
  | nil => intro i j ha; cases ha
  | cons b rest ih =>
    intro i j ha he
    cases i with
    | zero =>
      obtain rfl : b = a := by simpa using ha
      simp [setExpandedAt, flattenTreeAux, he]
      ring
    | succ k =>
      have ha' : rest[k]? = some a := by simpa using ha
      simp [setExpandedAt, flattenTreeAux, ih k (j + 1) ha' he]
      ring

theorem setExpandedAt_restore (t : List AreaNode) (a : AreaNode) :
    ∀ i, t[i]? = some a → a.expanded = true →
      setExpandedAt (setExpandedAt t i false) i true = t := by
  induction t with
  | nil => intro i ha; cases ha
  | cons b rest ih =>
    intro i ha he
    cases i with
    | zero =>
      obtain rfl : b = a := by simpa using ha
      obtain ⟨n, f, e, ch⟩ := b
      simp only [setExpandedAt]
      simp at he
      rw [he]
    | succ k =>
      have ha' : rest[k]? = some a := by simpa using ha
      simp [setExpandedAt, ih k ha' he]

/-- C3: the flattened view lists, for each area in forest order, the
header row followed by one row per child exactly when the area is
expanded; consequently its length is the number of areas plus the summed
child counts of the expanded areas, collapsing an expanded area shortens
it by exactly that area's child count, and re-expanding the same area
restores the previous sequence exactly. -/
theorem c3_flatten_view (t : List AreaNode) (i : Nat) (a : AreaNode)
    (ha : t[i]? = some a) (he : a.expanded = true) :
    (∀ t₁ t₂ (b : AreaNode), t = t₁ ++ b :: t₂ →
      flattenTree t =
        flattenTreeAux 0 t₁ ++
          ({ areaIdx := t₁.length, childIdx := -1 } ::
            (if b.expanded then
              (List.range b.children.length).map
                (fun j => { areaIdx := t₁.length, childIdx := (j : Int) })
            else [])) ++
          flattenTreeAux (t₁.length + 1) t₂) ∧
    (flattenTree t).length =
      t.length + ((t.filter (fun a => a.expanded)).map (fun a => a.children.length)).sum ∧
    (flattenTree t).length =
      (flattenTree (setExpandedAt t i false)).length + a.children.length ∧
    flattenTree (setExpandedAt (setExpandedAt t i false) i true) = flattenTree t := by
  refine ⟨?_, ?_, ?_, ?_⟩
  · intro t₁ t₂ b ht
    subst ht
    rw [flattenTree, flattenTreeAux_append]
    simp [flattenTreeAux]
  · exact flattenTreeAux_length t 0
  · exact flattenTreeAux_collapse_length t a i 0 ha he
  · rw [setExpandedAt_restore t a i ha he]

/-- Witness for C3: the scenario forest with its expanded `America` area. -/
theorem c3_flatten_view_witness :
    demoModel.tree[1]? =
        some { name := "America", fullPath := "America", expanded := true,
               children := [{ name := "Chicago", fullPath := "America/Chicago",
                              isSelected := false },
                            { name := "New_York", fullPath := "America/New_York",
                              isSelected := true }] } ∧
      (flattenTree demoModel.tree).length =
        (flattenTree (setExpandedAt demoModel.tree 1 false)).length + 2 := by
  refine ⟨by decide, ?_⟩
  have h := c3_flatten_view demoModel.tree 1
    { name := "America", fullPath := "America", expanded := true,
      children := [{ name := "Chicago", fullPath := "America/Chicago", isSelected := false },
                   { name := "New_York", fullPath := "America/New_York", isSelected := true }] }
    (by decide) (by decide)
  exact h.2.2.1

/-! ## Cursor well-formedness -/

/-- A cursor is well-placed for a collection of `n` items when it lies in
`[0, n-1]`, or rests at 0 on an empty collection. -/
def cursorWithin (cursor : Int) (n : Nat) : Prop :=
  0 ≤ cursor ∧ (cursor < (n : Int) ∨ (n = 0 ∧ cursor = 0))

instance (c : Int) (n : Nat) : Decidable (cursorWithin c n) := by
  unfold cursorWithin
  infer_instance

/-- Well-placedness of the search cursor within the match list. -/
def searchInv (m : WizardModel) : Prop :=
  cursorWithin m.searchCursor m.searchResults.length

instance (m : WizardModel) : Decidable (searchInv m) := by
  unfold searchInv
  infer_instance

/-- `performSearch` leaves the search cursor well-placed whenever it was
non-negative before. -/
theorem performSearch_inv (m : WizardModel) (h0 : 0 ≤ m.searchCursor) :
    searchInv (performSearch m) := by
  unfold performSearch
  by_cases hq : m.searchQuery = ""
  · rw [if_pos hq]
    exact ⟨le_refl 0, Or.inr ⟨rfl, rfl⟩⟩
  · rw [if_neg hq]
    show cursorWithin
      (if m.searchCursor ≥
          ((searchScanAux m.selected (strToLower m.searchQuery).data 0 m.tree).length : Int)
        then 0 else m.searchCursor)
      (searchScanAux m.selected (strToLower m.searchQuery).data 0 m.tree).length
    unfold cursorWithin
    split <;> omega

/-- C5 counterexample: the claim's strict bound `searchCursor <
len(matches)` fails as soon as a query has zero matches — here the
`EditQuery` appending `"z"` right after entering search on the scenario
catalog, where the cursor is 0 and the match list is empty. -/
theorem c5_counterexample :
    ¬((searchTypeRune (enterSearchMode demoModel) "z").searchCursor <
      ((searchTypeRune (enterSearchMode demoModel) "z").searchResults.length : Int)) := by
  decide

/-- C5 (amended): entering search establishes, and every `EditQuery`
(character append, or backspace) preserves, the well-placedness of the
search cursor: it is strictly below the match count whenever at least one
match exists, and rests at 0 when the match list is empty. -/
theorem c5_search_cursor (m : WizardModel) (s : String) :
    searchInv (enterSearchMode m) ∧
      (searchInv m → searchInv (searchTypeRune m s)) ∧
      (searchInv m → searchInv (searchBackspace m)) := by
  refine ⟨⟨le_refl 0, Or.inr ⟨rfl, rfl⟩⟩, ?_, ?_⟩
  · intro h
    exact performSearch_inv _ h.1
  · intro h
    unfold searchBackspace
    by_cases hq : m.searchQuery.length > 0
    · rw [if_pos hq]
      exact performSearch_inv _ h.1
    · rw [if_neg hq]
      exact h

/-- Witness for C5 (amended): the scenario model, entering search and
typing a matchless query. -/
theorem c5_search_cursor_witness :
    searchInv (searchTypeRune (enterSearchMode demoModel) "z") :=
  (c5_search_cursor (enterSearchMode demoModel) "z").2.1
    (c5_search_cursor demoModel "z").1

/-- C6 (failing input): the no-panic/clamping claim fails on the code.
Starting from the scenario catalog with three selected timezones, real
operations reach a state whose selected-pane cursor (2) is stale and
equal to the selection length (2): move the cursor down twice, Tab to the
available pane, toggle the fully selected `System` area off (removing
`Local` without clamping the cursor), Tab back.  There Go's
`moveSelectedUp` passes its guard (`cursor > 0 && len > 1`) and indexes
`m.selected[2]` in a slice of length 2 — an index-out-of-range panic,
modelled by `none`. -/
theorem c6_reorder_panics :
    moveSelectedUp (switchPane (toggleSelection (switchPane (moveCursorDown (moveCursorDown
        (switchPane (initWizardModel demoCatalog
          ["Local", "America/Chicago", "America/New_York"]))))))) = none ∧
      (switchPane (toggleSelection (switchPane (moveCursorDown (moveCursorDown
        (switchPane (initWizardModel demoCatalog
          ["Local", "America/Chicago", "America/New_York"]))))))).selectedCursor = 2 ∧
      (switchPane (toggleSelection (switchPane (moveCursorDown (moveCursorDown
        (switchPane (initWizardModel demoCatalog
          ["Local", "America/Chicago", "America/New_York"]))))))).selected =
        ["America/Chicago", "America/New_York"] ∧
      (switchPane (toggleSelection (switchPane (moveCursorDown (moveCursorDown
        (switchPane (initWizardModel demoCatalog
          ["Local", "America/Chicago", "America/New_York"]))))))).focusedPane =
        .selectedPane := by
  decide

/-! ## Search entry/exit and the expansion snapshot -/

theorem lookupSnap_cons_ne {snap : List (Nat × Bool)} {k i : Nat} {e : Bool}
    (h : k ≠ i) : lookupSnap ((k, e) :: snap) i = lookupSnap snap i := by
  simp [lookupSnap, h]

theorem restoreAux_cons_lt (t : List AreaNode) (snap : List (Nat × Bool)) (k : Nat) (e : Bool) :
    ∀ i, k < i → restoreAux ((k, e) :: snap) i t = restoreAux snap i t := by
  induction t with
  | nil => intro i _; rfl
  | cons a rest ih =>
    intro i hki
    unfold restoreAux
    rw [lookupSnap_cons_ne (Nat.ne_of_lt hki), ih (i + 1) (Nat.lt_succ_of_lt hki)]

/-- Restoring from a snapshot of a same-length tree puts back exactly the
snapshotted expansion flags. -/
theorem restore_snap (t : List AreaNode) : ∀ (t₀ : List AreaNode) (i : Nat),
    t.length = t₀.length →
      (restoreAux (snapAux i t₀) i t).map (·.expanded) = t₀.map (·.expanded) := by
  induction t with
  | nil =>
    intro t₀ i hlen
    cases t₀ with
    | nil => rfl
    | cons b rest₀ => simp at hlen
  | cons a rest ih =>
    intro t₀ i hlen
    cases t₀ with
    | nil => simp at hlen
    | cons b rest₀ =>
      have hlen' : rest.length = rest₀.length := by simpa using hlen
      unfold snapAux restoreAux
      rw [restoreAux_cons_lt rest _ i b.expanded (i + 1) (Nat.lt_succ_self i)]
      simp [lookupSnap, ih rest₀ (i + 1) hlen']

theorem updateSelectionState_preSearch (m : WizardModel) :
    (updateSelectionState m).preSearchExpanded = m.preSearchExpanded := rfl

theorem updateSelectionState_tree_length (m : WizardModel) :
    (updateSelectionState m).tree.length = m.tree.length := by
  simp [updateSelectionState]

theorem performSearch_preSearch (m : WizardModel) :
    (performSearch m).preSearchExpanded = m.preSearchExpanded := by
  unfold performSearch
  split <;> rfl

theorem performSearch_tree (m : WizardModel) :
    (performSearch m).tree = m.tree := by
  unfold performSearch
  split <;> rfl

/-- Every in-search operation keeps the expansion snapshot and the number
of areas. -/
theorem applySearchOp_state (m : WizardModel) (op : SearchOp) :
    (applySearchOp m op).preSearchExpanded = m.preSearchExpanded ∧
      (applySearchOp m op).tree.length = m.tree.length := by
  cases op with
  | up =>
    simp only [applySearchOp]
    unfold searchMoveUp
    split <;> exact ⟨rfl, rfl⟩
  | down =>
    simp only [applySearchOp]
    unfold searchMoveDown
    split <;> exact ⟨rfl, rfl⟩
  | toggle =>
    simp only [applySearchOp]
    unfold searchToggle
    split
    · cases hr : m.searchResults[m.searchCursor.toNat]? with
      | none => exact ⟨rfl, rfl⟩
      | some mtch =>
        simp only [hr]
        constructor
        · rw [performSearch_preSearch, updateSelectionState_preSearch]
          split <;> rfl
        · rw [performSearch_tree, updateSelectionState_tree_length]
          split <;> rfl
    · exact ⟨rfl, rfl⟩
  | backspace =>
    simp only [applySearchOp]
    unfold searchBackspace
    split
    · rw [performSearch_preSearch, performSearch_tree]
      exact ⟨rfl, rfl⟩
    · exact ⟨rfl, rfl⟩
  | typeRune s =>
    simp only [applySearchOp]
    unfold searchTypeRune
    rw [performSearch_preSearch, performSearch_tree]
    exact ⟨rfl, rfl⟩

theorem applySearchOps_state (m : WizardModel) (ops : List SearchOp) :
    (applySearchOps m ops).preSearchExpanded = m.preSearchExpanded ∧
      (applySearchOps m ops).tree.length = m.tree.length := by
  induction ops generalizing m with
  | nil => exact ⟨rfl, rfl⟩
  | cons op rest ih =>
    have hstep := applySearchOp_state m op
    have hrest := ih (applySearchOp m op)
    refine ⟨?_, ?_⟩
    · show (applySearchOps (applySearchOp m op) rest).preSearchExpanded = _
      rw [hrest.1, hstep.1]
    · show (applySearchOps (applySearchOp m op) rest).tree.length = _
      rw [hrest.2, hstep.2]

/-- C7: after entering search mode and performing any sequence of
in-search operations, cancelling (exit with `keepExpansion = false`)
restores every area's `expanded` flag to exactly its value at search
entry, recomputes the flattened view from the restored tree, and clears
the query, match list, search cursor and saved snapshot. -/
theorem c7_cancel_restores (m : WizardModel) (ops : List SearchOp) :
    (exitSearchMode (applySearchOps (enterSearchMode m) ops) false).tree.map (·.expanded) =
        m.tree.map (·.expanded) ∧
      (exitSearchMode (applySearchOps (enterSearchMode m) ops) false).flatTree =
        flattenTree (exitSearchMode (applySearchOps (enterSearchMode m) ops) false).tree ∧
      (exitSearchMode (applySearchOps (enterSearchMode m) ops) false).searchMode = false ∧
      (exitSearchMode (applySearchOps (enterSearchMode m) ops) false).searchQuery = "" ∧
      (exitSearchMode (applySearchOps (enterSearchMode m) ops) false).searchResults = [] ∧
      (exitSearchMode (applySearchOps (enterSearchMode m) ops) false).searchCursor = 0 ∧
      (exitSearchMode (applySearchOps (enterSearchMode m) ops) false).preSearchExpanded = none := by
  have hstate := applySearchOps_state (enterSearchMode m) ops
  have hps : (applySearchOps (enterSearchMode m) ops).preSearchExpanded =
      some (snapAux 0 m.tree) := hstate.1
  have hlen : (applySearchOps (enterSearchMode m) ops).tree.length = m.tree.length := hstate.2
  unfold exitSearchMode
  rw [if_pos rfl, hps]
  exact ⟨restore_snap _ m.tree 0 hlen, rfl, rfl, rfl, rfl, rfl, rfl⟩

/-- C10: with an empty match list, the commit command (Enter /
`CommitSearchMatch`) degrades to cancel: it exits search with
`keepExpansion = false`, restoring every area's `expanded` flag from the
pre-search snapshot and re-flattening, and leaves the selected list, the
selected-pane cursor, the tree cursor and the focused pane unchanged — no
jump and no focus switch. -/
theorem c10_commit_empty (m : WizardModel) (t₀ : List AreaNode)
    (hres : m.searchResults = [])
    (hsnap : m.preSearchExpanded = some (snapAux 0 t₀))
    (hlen : m.tree.length = t₀.length) :
    searchCommit m = exitSearchMode m false ∧
      (searchCommit m).tree.map (·.expanded) = t₀.map (·.expanded) ∧
      (searchCommit m).flatTree = flattenTree (searchCommit m).tree ∧
      (searchCommit m).selected = m.selected ∧
      (searchCommit m).selectedCursor = m.selectedCursor ∧
      (searchCommit m).treeCursor = m.treeCursor ∧
      (searchCommit m).focusedPane = m.focusedPane ∧
      (searchCommit m).searchMode = false ∧
      (searchCommit m).searchQuery = "" ∧
      (searchCommit m).searchResults = [] ∧
      (searchCommit m).preSearchExpanded = none := by
  have hcond : ¬(m.searchResults.length > 0 ∧ m.searchCursor < (m.searchResults.length : Int)) := by
    rw [hres]
    simp
  have hc : searchCommit m = exitSearchMode m false := by
    unfold searchCommit
    rw [if_neg hcond]
  have he : exitSearchMode m false =
      { m with searchMode := false, searchQuery := "", searchResults := [], searchCursor := 0,
               tree := restoreAux (snapAux 0 t₀) 0 m.tree,
               flatTree := flattenTree (restoreAux (snapAux 0 t₀) 0 m.tree),
               preSearchExpanded := none } := by
    unfold exitSearchMode
    rw [if_pos rfl, hsnap]
  rw [hc, he]
  exact ⟨rfl, restore_snap m.tree t₀ 0 hlen, rfl, rfl, rfl, rfl, rfl, rfl, rfl, rfl, rfl⟩

/-- Witness for C10: committing right after search entry on the scenario
model (zero matches) keeps the tree cursor and restores the expansion
flags. -/
theorem c10_commit_empty_witness :
    (searchCommit (enterSearchMode demoModel)).treeCursor = demoModel.treeCursor ∧
      (searchCommit (enterSearchMode demoModel)).tree.map (·.expanded) =
        demoModel.tree.map (·.expanded) := by
  have h := c10_commit_empty (enterSearchMode demoModel) demoModel.tree
    (by decide) (by decide) (by decide)
  exact ⟨h.2.2.2.2.2.1, h.2.1⟩

/-! ## The search scan as a filter over the forest traversal -/

theorem searchChildrenAux_eq (selected : List String) (q : List Char) (i : Nat) :
    ∀ (cs : List LocNode) (j : Nat),
      searchChildrenAux selected q i j cs =
        (specChildCoords i j cs).filterMap (fun x =>
          if containsSub (strToLower x.2.2.fullPath).data q then
            some { fullPath := x.2.2.fullPath, areaIdx := x.1, childIdx := x.2.1,
                   isSelected := listContains selected x.2.2.fullPath }
          else none) := by
  intro cs
  induction cs with
  | nil => intro j; rfl
  | cons c rest ih =>
    intro j
    unfold searchChildrenAux specChildCoords
    rw [List.filterMap_cons]
    by_cases hct : containsSub (strToLower c.fullPath).data q = true
    · simp [hct, ih (j + 1)]
    · simp [hct, ih (j + 1)]

theorem searchScanAux_eq (selected : List String) (q : List Char) :
    ∀ (t : List AreaNode) (i : Nat),
      searchScanAux selected q i t =
        (specTraversalAux i t).filterMap (fun x =>
          if containsSub (strToLower x.2.2.fullPath).data q then
            some { fullPath := x.2.2.fullPath, areaIdx := x.1, childIdx := x.2.1,
                   isSelected := listContains selected x.2.2.fullPath }
          else none) := by
  intro t
  induction t with
  | nil => intro i; rfl
  | cons a rest ih =>
    intro i
    unfold searchScanAux specTraversalAux
    rw [List.filterMap_append, searchChildrenAux_eq, ih (i + 1)]

/-- C4: on an empty query, `performSearch` clears the match list and
resets the search cursor to 0; on a non-empty query it returns exactly the
location nodes whose `fullPath` contains the query as a case-insensitive
substring, in forest traversal order (area order, then child order), each
carrying its `(areaIndex, childIndex)` coordinate and a selection
snapshot.  In particular, building the query `"london"` over the scenario
catalog yields exactly one match, `"Europe/London"`. -/
theorem c4_search (m : WizardModel) :
    (m.searchQuery = "" →
      (performSearch m).searchResults = [] ∧ (performSearch m).searchCursor = 0) ∧
      (m.searchQuery ≠ "" →
        (performSearch m).searchResults =
          (specTraversal m.tree).filterMap (fun x =>
            if containsSub (strToLower x.2.2.fullPath).data (strToLower m.searchQuery).data then
              some { fullPath := x.2.2.fullPath, areaIdx := x.1, childIdx := x.2.1,
                     isSelected := listContains m.selected x.2.2.fullPath }
            else none)) ∧
      (applySearchOps (enterSearchMode demoModel)
          [.typeRune "l", .typeRune "o", .typeRune "n", .typeRune "d", .typeRune "o",
            .typeRune "n"]).searchResults.map (·.fullPath) = ["Europe/London"] := by
  refine ⟨?_, ?_, by decide⟩
  · intro hq
    unfold performSearch
    rw [if_pos hq]
    exact ⟨rfl, rfl⟩
  · intro hq
    unfold performSearch
    rw [if_neg hq]
    exact searchScanAux_eq m.selected (strToLower m.searchQuery).data m.tree 0

/-- Witness for C4: the empty query right after search entry, and the
query `"london"` in one shot, both on the scenario model. -/
theorem c4_search_witness :
    ((performSearch (enterSearchMode demoModel)).searchResults = [] ∧
      (performSearch (enterSearchMode demoModel)).searchCursor = 0) ∧
      (performSearch
          { demoModel with searchMode := true, searchQuery := "london" }).searchResults =
        (specTraversal demoModel.tree).filterMap (fun x =>
          if containsSub (strToLower x.2.2.fullPath).data (strToLower "london").data then
            some { fullPath := x.2.2.fullPath, areaIdx := x.1, childIdx := x.2.1,
                   isSelected := listContains demoModel.selected x.2.2.fullPath }
          else none) := by
  refine ⟨(c4_search (enterSearchMode demoModel)).1 rfl, ?_⟩
  exact (c4_search { demoModel with searchMode := true, searchQuery := "london" }).2.1 (by decide)

/-! ## The lexicographic order used by `buildTree`'s sorts -/

theorem charListLe_total (a : List Char) : ∀ b, charListLe a b = true ∨ charListLe b a = true := by
  induction a with
  | nil => intro b; exact Or.inl rfl
  | cons x xs ih =>
    intro b
    cases b with
    | nil => exact Or.inr rfl
    | cons y ys =>
      by_cases hxy : x = y
      · subst hxy
        simpa [charListLe] using ih ys
      · have hyx : y ≠ x := fun h => hxy h.symm
        rcases lt_or_gt_of_ne hxy with hlt | hgt
        · left
          simp [charListLe, hxy, hlt]
        · right
          simp [charListLe, hyx, hgt]

theorem charListLe_trans (a : List Char) :
    ∀ b c, charListLe a b = true → charListLe b c = true → charListLe a c = true := by
  induction a with
  | nil => intro b c _ _; rfl
  | cons x xs ih =>
    intro b c hab hbc
    cases b with
    | nil => cases hab
    | cons y ys =>
      cases c with
      | nil => cases hbc
      | cons z zs =>
        by_cases hxy : x = y <;> by_cases hyz : y = z
        · subst hxy
          subst hyz
          simp only [charListLe, if_pos rfl] at hab hbc ⊢
          exact ih ys zs hab hbc
        · subst hxy
          simp only [charListLe, if_pos rfl, if_neg hyz] at hbc ⊢
          exact hbc
        · subst hyz
          simp only [charListLe, if_neg hxy, if_pos rfl] at hab ⊢
          exact hab
        · simp only [charListLe, if_neg hxy, if_neg hyz, decide_eq_true_eq] at hab hbc
          have hxz : x < z := lt_trans hab hbc
          have hne : x ≠ z := ne_of_lt hxz
          simp [charListLe, hne, hxz]

theorem strLeRel_total : ∀ a b : String, strLeRel a b ∨ strLeRel b a :=
  fun a b => charListLe_total a.data b.data

theorem strLeRel_trans : ∀ a b c : String, strLeRel a b → strLeRel b c → strLeRel a c :=
  fun a b c => charListLe_trans a.data b.data c.data

theorem locLeRel_total : ∀ a b : LocNode, locLeRel a b ∨ locLeRel b a :=
  fun a b => charListLe_total a.name.data b.name.data

theorem locLeRel_trans : ∀ a b c : LocNode, locLeRel a b → locLeRel b c → locLeRel a c :=
  fun a b c => charListLe_trans a.name.data b.name.data c.name.data

/-! ## The key set produced by the grouping loop -/

theorem mem_addToArea_keys (acc : List (String × List LocNode)) (a : String) (ln : LocNode)
    (s : String) :
    s ∈ (addToArea acc a ln).map Prod.fst ↔ s ∈ acc.map Prod.fst ∨ s = a := by
  induction acc with
  | nil => simp [addToArea]
  | cons g rest ih =>
    by_cases hg : g.1 = a
    · simp only [addToArea, if_pos hg, List.map_cons, List.mem_cons]
      constructor
      · exact Or.inl
      · rintro ((h | h) | rfl)
        · exact Or.inl h
        · exact Or.inr h
        · exact Or.inl hg.symm
    · simp [addToArea, hg, ih, List.mem_cons, or_assoc]

theorem addToArea_keys_nodup {acc : List (String × List LocNode)} (a : String) (ln : LocNode)
    (h : (acc.map Prod.fst).Nodup) : ((addToArea acc a ln).map Prod.fst).Nodup := by
  induction acc with
  | nil => simp [addToArea]
  | cons g rest ih =>
    rcases List.nodup_cons.mp h with ⟨hg1, hrest⟩
    by_cases hg : g.1 = a
    · simpa [addToArea, hg] using h
    · simp only [addToArea, if_neg hg, List.map_cons]
      refine List.nodup_cons.mpr ⟨?_, ih hrest⟩
      rw [mem_addToArea_keys]
      rintro (h' | h')
      · exact hg1 h'
      · exact hg h'

theorem groupFold_keys_nodup (selected : List String) :
    ∀ (tzs : List String) (acc : List (String × List LocNode)),
      (acc.map Prod.fst).Nodup → ((tzs.foldl (groupStep selected) acc).map Prod.fst).Nodup := by
  intro tzs
  induction tzs with
  | nil => intro acc h; exact h
  | cons tz rest ih =>
    intro acc h
    rw [List.foldl_cons]
    refine ih _ ?_
    unfold groupStep
    cases hs : splitArea tz with
    | none => exact h
    | some al => exact addToArea_keys_nodup al.1 _ h

theorem groupFold_keys_mem (selected : List String) (s : String) :
    ∀ (tzs : List String) (acc : List (String × List LocNode)),
      s ∈ ((tzs.foldl (groupStep selected) acc).map Prod.fst) ↔
        s ∈ acc.map Prod.fst ∨ ∃ tz ∈ tzs, ∃ loc, splitArea tz = some (s, loc) := by
  intro tzs
  induction tzs with
  | nil => intro acc; simp
  | cons tz rest ih =>
    intro acc
    rw [List.foldl_cons, ih]
    unfold groupStep
    cases hs : splitArea tz with
    | none =>
      simp only [List.exists_mem_cons_iff, hs]
      constructor
      · rintro (h | h)
        · exact Or.inl h
        · exact Or.inr (Or.inr h)
      · rintro (h | ⟨loc, hloc⟩ | h)
        · exact Or.inl h
        · cases hloc
        · exact Or.inr h
    | some al =>
      rw [mem_addToArea_keys]
      simp only [List.exists_mem_cons_iff, hs]
      constructor
      · rintro ((h | rfl) | h)
        · exact Or.inl h
        · exact Or.inr (Or.inl ⟨al.2, rfl⟩)
        · exact Or.inr (Or.inr h)
      · rintro (h | ⟨loc, hloc⟩ | h)
        · exact Or.inl (Or.inl h)
        · injection hloc with hpair
          exact Or.inl (Or.inr (congrArg Prod.fst hpair).symm)
        · exact Or.inr h

/-- Every key of the grouping is the area prefix of some catalog entry,
and distinct keys stay distinct. -/
theorem groupByArea_keys_mem (timezones selected : List String) (s : String) :
    s ∈ (groupByArea timezones selected).map Prod.fst ↔
      ∃ tz ∈ timezones, ∃ loc, splitArea tz = some (s, loc) := by
  rw [groupByArea, groupFold_keys_mem]
  simp

theorem groupByArea_keys_nodup (timezones selected : List String) :
    ((groupByArea timezones selected).map Prod.fst).Nodup :=
  groupFold_keys_nodup selected timezones [] (by simp)

/-! ## The initial tree of a wizard session -/

/-- The per-area effect of `initWizardModel` on the built tree: the
auto-expand check followed by the selection re-sync. -/
def initArea (sel : List String) (area : AreaNode) : AreaNode :=
  let a := if countSelectedInArea area sel > 0 then { area with expanded := true } else area
  { a with children := a.children.map (fun c =>
      { c with isSelected := listContains sel c.fullPath }) }

theorem initTree_eq (cat sel : List String) :
    (initWizardModel cat sel).tree = (buildTree cat sel).map (initArea sel) := by
  simp only [initWizardModel, updateSelectionState, autoExpand, List.map_map]
  rfl

theorem initArea_name (sel : List String) (a : AreaNode) : (initArea sel a).name = a.name := by
  unfold initArea
  split <;> rfl

theorem initArea_expanded (sel : List String) (a : AreaNode) :
    (initArea sel a).expanded =
      if countSelectedInArea a sel > 0 then true else a.expanded := by
  unfold initArea
  split <;> simp_all

theorem initArea_children (sel : List String) (a : AreaNode) :
    (initArea sel a).children =
      a.children.map (fun c => { c with isSelected := listContains sel c.fullPath }) := by
  unfold initArea
  split <;> rfl

theorem initArea_systemArea (sel : List String) :
    initArea sel (systemArea sel) = systemArea sel := by
  unfold initArea systemArea
  split <;> rfl

theorem initTree_tail (cat sel : List String) :
    (initWizardModel cat sel).tree.tail =
      (List.insertionSort strLeRel ((groupByArea cat sel).map Prod.fst)).map
        (fun n => initArea sel (builtArea (groupByArea cat sel) n)) := by
  rw [initTree_eq]
  unfold buildTree
  simp [List.map_map]

theorem initTree_tail_names (cat sel : List String) :
    (initWizardModel cat sel).tree.tail.map (·.name) =
      List.insertionSort strLeRel ((groupByArea cat sel).map Prod.fst) := by
  rw [initTree_tail, List.map_map]
  have : ∀ n, ((initArea sel (builtArea (groupByArea cat sel) n)).name) = n := fun n => by
    rw [initArea_name]
    rfl
  calc (List.insertionSort strLeRel ((groupByArea cat sel).map Prod.fst)).map
        ((·.name) ∘ fun n => initArea sel (builtArea (groupByArea cat sel) n))
      = (List.insertionSort strLeRel ((groupByArea cat sel).map Prod.fst)).map id := by
        exact List.map_congr_left fun n _ => this n
    _ = _ := List.map_id _

/-- C8: the built and initialised forest has the synthetic `System` area
(with the single child `Local`) expanded at its head; the remaining areas
carry exactly the distinct area prefixes of the catalog entries containing
a `/` (other entries are dropped), in sorted order without repetition,
each with its children sorted by location name; and an area is expanded
after construction exactly when it is the System area or contains a child
whose `fullPath` lies in the initial selection. -/
theorem c8_build_init (cat sel : List String) :
    (initWizardModel cat sel).tree.head? =
        some { name := "System", fullPath := "System", expanded := true,
               children := [{ name := "Local", fullPath := "Local",
                              isSelected := listContains sel "Local" }] } ∧
      List.Pairwise strLeRel ((initWizardModel cat sel).tree.tail.map (·.name)) ∧
      ((initWizardModel cat sel).tree.tail.map (·.name)).Nodup ∧
      (∀ s, s ∈ (initWizardModel cat sel).tree.tail.map (·.name) ↔
        ∃ tz ∈ cat, ∃ loc, splitArea tz = some (s, loc)) ∧
      (∀ a ∈ (initWizardModel cat sel).tree.tail,
        List.Pairwise (fun c d : LocNode => strLeRel c.name d.name) a.children) ∧
      (∀ i a, (initWizardModel cat sel).tree[i]? = some a →
        (a.expanded = true ↔ i = 0 ∨ ∃ c ∈ a.children, c.fullPath ∈ sel)) := by
  refine ⟨?_, ?_, ?_, ?_, ?_, ?_⟩
  · rw [initTree_eq]
    unfold buildTree
    rw [List.map_cons, List.head?_cons, initArea_systemArea]
    rfl
  · rw [initTree_tail_names]
    exact @List.sorted_insertionSort String strLeRel _ ⟨strLeRel_total⟩ ⟨strLeRel_trans⟩ _
  · rw [initTree_tail_names]
    exact ((List.perm_insertionSort strLeRel _).nodup_iff).mpr
      (groupByArea_keys_nodup cat sel)
  · intro s
    rw [initTree_tail_names, (List.perm_insertionSort strLeRel _).mem_iff,
      groupByArea_keys_mem]
  · intro a ha
    rw [initTree_tail] at ha
    obtain ⟨n, _, rfl⟩ := List.mem_map.mp ha
    rw [initArea_children]
    refine List.Pairwise.map _ (fun c d h => h) ?_
    show List.Pairwise locLeRel _
    unfold builtArea
    exact @List.sorted_insertionSort LocNode locLeRel _ ⟨locLeRel_total⟩ ⟨locLeRel_trans⟩ _
  · intro i a ha
    rw [initTree_eq, List.getElem?_map] at ha
    cases hb : (buildTree cat sel)[i]? with
    | none =>
      rw [hb] at ha
      cases ha
    | some b =>
      rw [hb] at ha
      obtain rfl : initArea sel b = a := by
        injection ha
      have hbt : buildTree cat sel =
          systemArea sel ::
            (List.insertionSort strLeRel ((groupByArea cat sel).map Prod.fst)).map
              (builtArea (groupByArea cat sel)) := rfl
      cases i with
      | zero =>
        have hbs : b = systemArea sel := by
          rw [hbt, List.getElem?_cons_zero] at hb
          injection hb with hb'
          exact hb'.symm
        subst hbs
        rw [initArea_systemArea]
        simp [systemArea]
      | succ k =>
        have hbf : b.expanded = false := by
          rw [hbt, List.getElem?_cons_succ, List.getElem?_map] at hb
          cases hn : (List.insertionSort strLeRel ((groupByArea cat sel).map Prod.fst))[k]? with
          | none =>
            rw [hn] at hb
            cases hb
          | some n =>
            rw [hn] at hb
            injection hb with hb'
            rw [← hb']
            rfl
        rw [initArea_expanded, initArea_children, hbf]
        constructor
        · intro hexp
          right
          by_cases hcnt : countSelectedInArea b sel > 0
          · obtain ⟨c, hc, hcs⟩ := List.countP_pos_iff.mp hcnt
            exact ⟨{ c with isSelected := listContains sel c.fullPath },
              List.mem_map_of_mem _ hc, listContains_iff.mp (by simpa using hcs)⟩
          · rw [if_neg hcnt] at hexp
            cases hexp
        · rintro (h0 | ⟨c, hc, hcs⟩)
          · cases h0
          · obtain ⟨c', hc', rfl⟩ := List.mem_map.mp hc
            have hcnt : countSelectedInArea b sel > 0 :=
              List.countP_pos_iff.mpr ⟨c', hc', by
                simpa using listContains_iff.mpr hcs⟩
            rw [if_pos hcnt]

/-- Witness for C8: the scenario catalog; the head is the System area and
the collapsed `Europe` area (index 2) has no selected child. -/
theorem c8_build_init_witness :
    (initWizardModel demoCatalog ["America/New_York"]).tree.head? =
        some { name := "System", fullPath := "System", expanded := true,
               children := [{ name := "Local", fullPath := "Local",
                              isSelected := false }] } ∧
      (({ name := "Europe", fullPath := "Europe", expanded := false,
          children := [{ name := "London", fullPath := "Europe/London",
                         isSelected := false }] } : AreaNode).expanded = true ↔
        2 = 0 ∨
          ∃ c ∈ [({ name := "London", fullPath := "Europe/London", isSelected := false } : LocNode)],
            c.fullPath ∈ ["America/New_York"]) := by
  have h := c8_build_init demoCatalog ["America/New_York"]
  exact ⟨h.1, h.2.2.2.2.2 2 _ (by decide)⟩

end TimeBuddy
